import Mathlib

/-!
Verification of the social-network-bubbles simulator (src/bubble/src/main.rs).

The development shallowly embeds the program: the flat symmetric weight
matrix (`Matrix`), the Watts–Strogatz topology generator (ring-lattice
construction followed by stochastic rewiring, with the random stream made
explicit), and the per-tick simulation update of opinions and edge weights.
Machine floats are modelled as rationals; the random number generator is an
explicit stream of rational draws consumed in program order.
-/

namespace Bubble

/-- The flat `size × size` weight matrix of `main.rs` (`struct Matrix`),
with `f64` entries modelled as rationals. -/
structure Matrix where
  size : Nat
  data : List ℚ
deriving DecidableEq

/-- Model of `Matrix::new(size)`: a `size*size` allocation of default (zero) weights. -/
def Matrix.new (n : Nat) : Matrix :=
  ⟨n, List.replicate (n * n) 0⟩

/-- Model of `Matrix::index_for`: row-major flat index. -/
def Matrix.index_for (m : Matrix) (row col : Nat) : Nat :=
  row * m.size + col

/-- Model of `Matrix::get`: read a cell (out-of-range reads yield the default 0,
matching the model's total `getD`; the program never reads out of range). -/
def Matrix.get (m : Matrix) (row col : Nat) : ℚ :=
  m.data.getD (m.index_for row col) 0

/-- Model of `Matrix::put`: write `value` at `(row, col)` and at `(col, row)` as a
single mutation. -/
def Matrix.put (m : Matrix) (row col : Nat) (v : ℚ) : Matrix :=
  ⟨m.size, (m.data.set (m.index_for row col) v).set (m.index_for col row) v⟩

/-- The random number generator: an explicit stream of draws together with
the position of the next draw, modelling `rand::thread_rng` consumption. -/
structure Rng where
  stream : Nat → ℚ
  pos : Nat

/-- One `next_f64()` call: return the current draw and advance. -/
def Rng.next (r : Rng) : ℚ × Rng :=
  (r.stream r.pos, ⟨r.stream, r.pos + 1⟩)

/-- One iteration of the inner ring-lattice loop of `wattz_strogatz`
(lines 52-64): wrap the column, skip the diagonal, otherwise write the
marker, and advance the column. -/
def ringStep (row : Nat) (marker : ℚ) (s : Matrix × Nat) : Matrix × Nat :=
  let m := s.1
  let col := if s.2 > m.size - 1 then s.2 - m.size else s.2
  if col = row then (m, col + 1)
  else (m.put row col marker, col + 1)

/-- Iterate the inner ring-lattice loop `fuel` times. -/
def ringIter (row : Nat) (marker : ℚ) : Nat → Matrix × Nat → Matrix × Nat
  | 0, s => s
  | t + 1, s => ringIter row marker t (ringStep row marker s)

/-- The body of the outer ring-lattice loop for one `row`: `k+1` iterations
starting at column `size - k/2 + row`. -/
def ringRow (k : Nat) (marker : ℚ) (m : Matrix) (row : Nat) : Matrix :=
  (ringIter row marker (k + 1) (m, m.size - k / 2 + row)).1

/-- Phase A of `wattz_strogatz` (lines 48-66): the ring lattice. -/
def ringLattice (n k : Nat) (marker : ℚ) : Matrix :=
  (List.range n).foldl (ringRow k marker) (Matrix.new n)

/-- The candidate scan of Phase B (lines 74-86): iterate `new_col` over the
remaining candidate list, skip `new_col = row`, accept a candidate when its
draw is at most `1/n`, clearing the old edge and writing the new one. -/
def rewireScan (n : Nat) (marker : ℚ) (row col : Nat) :
    List Nat → Matrix × Rng → Matrix × Rng
  | [], s => s
  | c :: rest, s =>
    if c = row then rewireScan n marker row col rest s
    else
      let d := s.2.next
      if d.1 ≤ 1 / (n : ℚ) then
        (((((s.1.put row col 0).put col row 0).put row c marker).put c row marker), d.2)
      else rewireScan n marker row col rest (s.1, d.2)

/-- Phase B body for one pair `(row, col)` (lines 72-88): when the pair
holds the marker, draw once against `beta` (the `&&` short-circuits, so no
draw is consumed otherwise) and on success scan the candidates. -/
def rewirePair (n : Nat) (beta marker : ℚ) (row : Nat) (s : Matrix × Rng)
    (col : Nat) : Matrix × Rng :=
  if s.1.get row col = marker then
    let d := s.2.next
    if d.1 ≤ beta then rewireScan n marker row col (List.range n) (s.1, d.2)
    else (s.1, d.2)
  else s

/-- Phase B inner loop: all `col < row`. -/
def rewireRow (n : Nat) (beta marker : ℚ) (s : Matrix × Rng) (row : Nat) :
    Matrix × Rng :=
  (List.range row).foldl (rewirePair n beta marker row) s

/-- Phase B (lines 69-90): rewire every marker pair below the diagonal. -/
def rewirePhase (n : Nat) (beta marker : ℚ) (s : Matrix × Rng) : Matrix × Rng :=
  (List.range n).foldl (rewireRow n beta marker) s

/-- Model of `Matrix::wattz_strogatz` (lines 45-94): ring lattice, then rewiring. -/
def Matrix.wattz_strogatz (n k : Nat) (beta marker : ℚ) (r : Rng) :
    Matrix × Rng :=
  rewirePhase n beta marker (ringLattice n k marker, r)

/-- The end-of-tick clamp of one opinion into `[0, 100]` (lines 260-266). -/
def clampOpinion (x : ℚ) : ℚ :=
  if x < 0 then 0 else if x > 100 then 100 else x

/-- The per-recipient body of the simulation loop (lines 194-257): skip
recipients with non-positive edge weight, then classify the opinion
difference into consensus / opposition / neutral regimes, updating the edge
weight and the recipient's opinion. -/
def updateRecipient (consensus opposition : ℚ) (sender : Nat) (message : ℚ)
    (s : Matrix × List ℚ) (recipient : Nat) : Matrix × List ℚ :=
  if s.1.get sender recipient ≤ 0 then s
  else
    let w := s.1.get sender recipient
    let op := s.2.getD recipient 0
    let opinion_change := w * ((message - op) / 100)
    let difference := |message - op|
    if difference < consensus then
      let ns0 := w + (consensus - difference) / 100
      let ns := if ns0 > 1 then 1 else ns0
      let ops2 := if message < op then s.2.set recipient (op - |opinion_change|)
                  else s.2.set recipient (op + |opinion_change|)
      (s.1.put sender recipient ns, ops2)
    else if difference > opposition then
      let ns0 := w - (difference - opposition) / 100
      let ns := if ns0 < 0 then 0 else ns0
      let ops2 := if message < op then s.2.set recipient (op + |opinion_change|)
                  else s.2.set recipient (op - |opinion_change|)
      (s.1.put sender recipient ns, ops2)
    else s

/-- One simulation tick (lines 188-273) for a given drawn `sender` and
`message`: process every recipient in order, then clamp every opinion. -/
def simTick (n : Nat) (consensus opposition : ℚ) (sender : Nat) (message : ℚ)
    (s : Matrix × List ℚ) : Matrix × List ℚ :=
  let s2 := (List.range n).foldl (updateRecipient consensus opposition sender message) s
  (s2.1, (List.range n).foldl (fun ops i => ops.set i (clampOpinion (ops.getD i 0))) s2.2)

/-- A run of the simulation loop over a list of drawn `(sender, message)`
pairs, one per tick. -/
def runTicks (n : Nat) (consensus opposition : ℚ) :
    List (Nat × ℚ) → Matrix × List ℚ → Matrix × List ℚ
  | [], s => s
  | t :: rest, s =>
    runTicks n consensus opposition rest (simTick n consensus opposition t.1 t.2 s)

/-- The number of nonzero non-self (directed) cells of the matrix. -/
def edgeCount (m : Matrix) : Nat :=
  ((Finset.range m.size ×ˢ Finset.range m.size).filter
    (fun p => p.1 ≠ p.2 ∧ m.get p.1 p.2 ≠ 0)).card

/-- Well-formedness: the matrix is an `n × n` allocation. -/
def dims (n : Nat) (m : Matrix) : Prop :=
  m.size = n ∧ m.data.length = n * n

/-- Symmetry of the stored weights over the node range. -/
def Symm (m : Matrix) : Prop :=
  ∀ i j, i < m.size → j < m.size → m.get i j = m.get j i

/-- The diagonal is all zero over the node range. -/
def DiagZero (m : Matrix) : Prop :=
  ∀ i, i < m.size → m.get i i = 0

/-- Every stored weight lies in `[0, 1]`. -/
def entries01 (m : Matrix) : Prop :=
  ∀ x ∈ m.data, 0 ≤ x ∧ x ≤ 1

/-- Ring-lattice adjacency: `j` is among the `k/2` nearest successors or
predecessors of `i` modulo `n`. -/
def ringAdj (n k i j : Nat) : Prop :=
  ∃ t ∈ Finset.Icc 1 (k / 2), j = (i + t) % n ∨ i = (j + t) % n

instance (n k i j : Nat) : Decidable (ringAdj n k i j) := by
  unfold ringAdj; infer_instance

/-! ### List helpers -/

lemma getD_set_self : ∀ (l : List ℚ) (i : Nat) (v : ℚ), i < l.length →
    (l.set i v).getD i 0 = v := by
  intro l
  induction l with
  | nil => intro i v h; simp at h
  | cons a t ih =>
    intro i v h
    cases i with
    | zero => rfl
    | succ i => simpa using ih i v (by simpa using h)

lemma getD_set_ne : ∀ (l : List ℚ) (i j : Nat) (v : ℚ), i ≠ j →
    (l.set i v).getD j 0 = l.getD j 0 := by
  intro l
  induction l with
  | nil => intro i j v _; simp
  | cons a t ih =>
    intro i j v hij
    cases i with
    | zero =>
      cases j with
      | zero => exact absurd rfl hij
      | succ j => rfl
    | succ i =>
      cases j with
      | zero => rfl
      | succ j => simpa using ih i j v (by omega)

lemma getD_replicate (k : Nat) : ∀ (i : Nat), (List.replicate k (0 : ℚ)).getD i 0 = 0 := by
  induction k with
  | zero => intro i; simp
  | succ k ih =>
    intro i
    cases i with
    | zero => rfl
    | succ i => exact ih i

lemma mem_of_mem_set : ∀ (l : List ℚ) (i : Nat) (v x : ℚ), x ∈ l.set i v →
    x ∈ l ∨ x = v := by
  intro l
  induction l with
  | nil => intro i v x h; simp at h
  | cons a t ih =>
    intro i v x h
    cases i with
    | zero =>
      rcases List.mem_cons.mp h with h | h
      · right; exact h
      · left; exact List.mem_cons_of_mem _ h
    | succ i =>
      rcases List.mem_cons.mp h with h | h
      · left; exact h ▸ List.mem_cons_self _ _
      · rcases ih i v x h with h | h
        · left; exact List.mem_cons_of_mem _ h
        · right; exact h

lemma getD_mem_or (l : List ℚ) (i : Nat) : l.getD i 0 ∈ l ∨ l.getD i 0 = 0 := by
  induction l generalizing i with
  | nil => right; rfl
  | cons a t ih =>
    cases i with
    | zero => left; exact List.mem_cons_self _ _
    | succ i =>
      rcases ih i with h | h
      · left; exact List.mem_cons_of_mem _ (by simpa using h)
      · right; simpa using h

lemma foldl_invariant {α β : Type} (P : α → Prop) (g : α → β → α) :
    ∀ (l : List β) (s : α), (∀ a b, b ∈ l → P a → P (g a b)) → P s → P (l.foldl g s) := by
  intro l
  induction l with
  | nil => intro s _ hs; exact hs
  | cons x t ih =>
    intro s hstep hs
    exact ih (g s x) (fun a b hb ha => hstep a b (List.mem_cons_of_mem _ hb) ha)
      (hstep s x (List.mem_cons_self _ _) hs)

/-! ### Flat-index arithmetic -/

lemma flat_bound {n a b : Nat} (ha : a < n) (hb : b < n) : a * n + b < n * n := by
  calc a * n + b < a * n + n := by omega
  _ = (a + 1) * n := by ring
  _ ≤ n * n := Nat.mul_le_mul_right n ha

lemma flat_lt {n b d : Nat} (a c : Nat) (hb : b < n) (h1 : a < c) :
    a * n + b < c * n + d := by
  calc a * n + b < a * n + n := by omega
  _ = (a + 1) * n := by ring
  _ ≤ c * n := Nat.mul_le_mul_right n h1
  _ ≤ c * n + d := Nat.le_add_right _ _

lemma flat_index_inj {n a b c d : Nat} (hb : b < n) (hd : d < n)
    (h : a * n + b = c * n + d) : a = c ∧ b = d := by
  have hac : a = c := by
    rcases Nat.lt_trichotomy a c with h1 | h1 | h1
    · exact absurd h (Nat.ne_of_lt (flat_lt a c hb h1))
    · exact h1
    · exact absurd h.symm (Nat.ne_of_lt (flat_lt c a hd h1))
  subst hac
  exact ⟨rfl, by omega⟩

/-! ### Matrix get/put toolkit -/

lemma size_put (m : Matrix) (r c : Nat) (v : ℚ) : (m.put r c v).size = m.size := rfl

lemma dims_put {n : Nat} {m : Matrix} (hm : dims n m) (r c : Nat) (v : ℚ) :
    dims n (m.put r c v) := by
  obtain ⟨hs, hl⟩ := hm
  exact ⟨hs, by simp [Matrix.put, hl]⟩

lemma dims_new (n : Nat) : dims n (Matrix.new n) :=
  ⟨rfl, by simp [Matrix.new]⟩

lemma get_new (n i j : Nat) : (Matrix.new n).get i j = 0 :=
  getD_replicate (n * n) _

lemma get_put {n : Nat} (m : Matrix) (hm : dims n m) (r c i j : Nat)
    (hr : r < n) (hc : c < n) (hi : i < n) (hj : j < n) (v : ℚ) :
    (m.put r c v).get i j =
      if (i = r ∧ j = c) ∨ (i = c ∧ j = r) then v else m.get i j := by
  obtain ⟨hs, hl⟩ := hm
  show ((m.data.set (r * m.size + c) v).set (c * m.size + r) v).getD (i * m.size + j) 0 = _
  rw [hs]
  by_cases h1 : i = c ∧ j = r
  · have hidx : i * n + j = c * n + r := by rw [h1.1, h1.2]
    rw [hidx, getD_set_self]
    · rw [if_pos (Or.inr h1)]
    · rw [List.length_set, hl]; exact flat_bound hc hr
  · by_cases h2 : i = r ∧ j = c
    · have hidx : i * n + j = r * n + c := by rw [h2.1, h2.2]
      have hne : c * n + r ≠ i * n + j := by
        intro he
        exact h1 (flat_index_inj hj hr he.symm)
      rw [getD_set_ne _ _ _ _ hne, hidx, getD_set_self]
      · rw [if_pos (Or.inl h2)]
      · rw [hl]; exact flat_bound hr hc
    · have hne1 : c * n + r ≠ i * n + j := by
        intro he
        exact h1 (flat_index_inj hj hr he.symm)
      have hne2 : r * n + c ≠ i * n + j := by
        intro he
        exact h2 (flat_index_inj hj hc he.symm)
      rw [getD_set_ne _ _ _ _ hne1, getD_set_ne _ _ _ _ hne2]
      have hcond : ¬((i = r ∧ j = c) ∨ (i = c ∧ j = r)) := by tauto
      rw [if_neg hcond]
      simp [Matrix.get, Matrix.index_for, hs]

lemma get_oob {n : Nat} {m : Matrix} (hm : dims n m) (i j : Nat)
    (h : n * n ≤ i * n + j) : m.get i j = 0 := by
  obtain ⟨hs, hl⟩ := hm
  show m.data.getD (i * m.size + j) 0 = 0
  rw [hs]
  rw [List.getD_eq_default]
  rw [hl]; exact h

/-! ### Phase A: characterization of the ring-lattice construction -/

lemma wrap_eq_mod {n col : Nat} (hn : 1 ≤ n) (hcol : col < 2 * n) :
    (if col > n - 1 then col - n else col) = col % n := by
  by_cases h : col > n - 1
  · rw [if_pos h]
    have h1 : n ≤ col := by omega
    rw [Nat.mod_eq_sub_mod h1, Nat.mod_eq_of_lt (by omega)]
  · rw [if_neg h, Nat.mod_eq_of_lt (by omega)]

theorem ringIter_spec (marker : ℚ) (n row : Nat) (hn : 1 ≤ n) (hrow : row < n) :
    ∀ (fuel : Nat) (m : Matrix) (col : Nat), dims n m → col < 2 * n →
    dims n (ringIter row marker fuel (m, col)).1 ∧
    ∀ i j, i < n → j < n →
      (ringIter row marker fuel (m, col)).1.get i j =
        if ∃ t, t < fuel ∧ (col + t) % n ≠ row ∧
            ((i = row ∧ j = (col + t) % n) ∨ (j = row ∧ i = (col + t) % n))
        then marker else m.get i j := by
  intro fuel
  induction fuel with
  | zero =>
    intro m col hm _
    refine ⟨hm, fun i j _ _ => ?_⟩
    rw [if_neg]
    · rfl
    · rintro ⟨t, ht, -⟩
      omega
  | succ fuel ih =>
    intro m col hm hcol
    have hwrap : (if col > m.size - 1 then col - m.size else col) = col % n := by
      rw [hm.1]; exact wrap_eq_mod hn hcol
    have hcw : col % n < n := Nat.mod_lt _ (by omega)
    have hiter : ringIter row marker (fuel + 1) (m, col) =
        ringIter row marker fuel (ringStep row marker (m, col)) := rfl
    by_cases hc : col % n = row
    · have hstep : ringStep row marker (m, col) = (m, col % n + 1) := by
        show (if (if col > m.size - 1 then col - m.size else col) = row then _ else _) = _
        rw [hwrap, if_pos hc]
      rw [hiter, hstep]
      obtain ⟨ihd, ihg⟩ := ih m (col % n + 1) hm (by omega)
      refine ⟨ihd, fun i j hi hj => ?_⟩
      rw [ihg i j hi hj]
      refine if_congr ⟨?_, ?_⟩ rfl rfl
      · rintro ⟨t, ht, hne, hmt⟩
        refine ⟨t + 1, by omega, ?_, ?_⟩ <;>
        · have he : (col + (t + 1)) % n = (col % n + 1 + t) % n := by
            rw [show col % n + 1 + t = col % n + (1 + t) from by omega, Nat.mod_add_mod,
              show col + (1 + t) = col + (t + 1) from by omega]
          rw [he]
          first | exact hne | exact hmt
      · rintro ⟨t, ht, hne, hmt⟩
        match t, ht with
        | 0, _ =>
          exfalso
          rw [Nat.add_zero, hc] at hne
          exact hne rfl
        | s + 1, ht =>
          refine ⟨s, by omega, ?_, ?_⟩ <;>
          · have he : (col + (s + 1)) % n = (col % n + 1 + s) % n := by
              rw [show col % n + 1 + s = col % n + (1 + s) from by omega, Nat.mod_add_mod,
                show col + (1 + s) = col + (s + 1) from by omega]
            rw [← he]
            first | exact hne | exact hmt
    · have hstep : ringStep row marker (m, col) =
          (m.put row (col % n) marker, col % n + 1) := by
        show (if (if col > m.size - 1 then col - m.size else col) = row then _ else _) = _
        rw [hwrap, if_neg hc]
      rw [hiter, hstep]
      obtain ⟨ihd, ihg⟩ := ih (m.put row (col % n) marker) (col % n + 1)
        (dims_put hm _ _ _) (by omega)
      refine ⟨ihd, fun i j hi hj => ?_⟩
      rw [ihg i j hi hj]
      have hput : (m.put row (col % n) marker).get i j =
          if (i = row ∧ j = col % n) ∨ (i = col % n ∧ j = row) then marker
          else m.get i j := get_put m hm row (col % n) i j hrow hcw hi hj marker
      have hshift : ∀ s : Nat, (col + (s + 1)) % n = (col % n + 1 + s) % n := by
        intro s
        rw [show col % n + 1 + s = col % n + (1 + s) from by omega, Nat.mod_add_mod,
          show col + (1 + s) = col + (s + 1) from by omega]
      by_cases hB : ∃ t, t < fuel ∧ (col % n + 1 + t) % n ≠ row ∧
          ((i = row ∧ j = (col % n + 1 + t) % n) ∨ (j = row ∧ i = (col % n + 1 + t) % n))
      · rw [if_pos hB]
        obtain ⟨t, ht, hne, hmt⟩ := hB
        rw [if_pos ⟨t + 1, by omega, by rw [hshift t]; exact hne, by rw [hshift t]; exact hmt⟩]
      · rw [if_neg hB, hput]
        by_cases hC : (i = row ∧ j = col % n) ∨ (i = col % n ∧ j = row)
        · rw [if_pos hC]
          refine (if_pos ⟨0, by omega, ?_, ?_⟩).symm
          · rw [Nat.add_zero]; exact hc
          · rw [Nat.add_zero]
            rcases hC with ⟨h1, h2⟩ | ⟨h1, h2⟩
            · exact Or.inl ⟨h1, h2⟩
            · exact Or.inr ⟨h2, h1⟩
        · rw [if_neg hC]
          refine (if_neg ?_).symm
          rintro ⟨t, ht, hne, hmt⟩
          match t, ht with
          | 0, _ =>
            rw [Nat.add_zero] at hne hmt
            rcases hmt with ⟨h1, h2⟩ | ⟨h1, h2⟩
            · exact hC (Or.inl ⟨h1, h2⟩)
            · exact hC (Or.inr ⟨h2, h1⟩)
          | s + 1, ht =>
            exact hB ⟨s, by omega, by rw [← hshift s]; exact hne, by rw [← hshift s]; exact hmt⟩

/-- The write condition contributed by one row of the Phase A loop. -/
def rowCond (n k r i j : Nat) : Prop :=
  ∃ t, t < k + 1 ∧ (n - k / 2 + r + t) % n ≠ r ∧
    ((i = r ∧ j = (n - k / 2 + r + t) % n) ∨ (j = r ∧ i = (n - k / 2 + r + t) % n))

instance (n k r i j : Nat) : Decidable (rowCond n k r i j) := by
  unfold rowCond; infer_instance

theorem ringRow_spec (marker : ℚ) (n k row : Nat) (hn : 1 ≤ n) (hrow : row < n)
    (m : Matrix) (hm : dims n m) :
    dims n (ringRow k marker m row) ∧
    ∀ i j, i < n → j < n →
      (ringRow k marker m row).get i j =
        if rowCond n k row i j then marker else m.get i j := by
  have hcol : n - k / 2 + row < 2 * n := by
    have : n - k / 2 ≤ n := Nat.sub_le _ _
    omega
  have hspec := ringIter_spec marker n row hn hrow (k + 1) m (n - k / 2 + row) hm hcol
  unfold ringRow
  rw [hm.1]
  exact ⟨hspec.1, fun i j hi hj => by
    rw [hspec.2 i j hi hj]
    refine if_congr ⟨?_, ?_⟩ rfl rfl <;>
    · rintro ⟨t, ht, hne, hmt⟩
      exact ⟨t, ht, hne, hmt⟩⟩

theorem lattice_fold_spec (marker : ℚ) (n k : Nat) (hn : 1 ≤ n) :
    ∀ (L : List Nat) (m : Matrix), dims n m → (∀ r ∈ L, r < n) →
    dims n (L.foldl (ringRow k marker) m) ∧
    ∀ i j, i < n → j < n →
      (L.foldl (ringRow k marker) m).get i j =
        if ∃ r ∈ L, rowCond n k r i j then marker else m.get i j := by
  intro L
  induction L with
  | nil =>
    intro m hm _
    refine ⟨hm, fun i j _ _ => ?_⟩
    rw [if_neg]
    · rfl
    · rintro ⟨r, hr, -⟩
      simp at hr
  | cons r L ih =>
    intro m hm hL
    have hr : r < n := hL r (List.mem_cons_self _ _)
    obtain ⟨hd1, hg1⟩ := ringRow_spec marker n k r hn hr m hm
    obtain ⟨hd2, hg2⟩ := ih (ringRow k marker m r) hd1
      (fun x hx => hL x (List.mem_cons_of_mem _ hx))
    refine ⟨hd2, fun i j hi hj => ?_⟩
    show ((L.foldl (ringRow k marker) (ringRow k marker m r))).get i j = _
    rw [hg2 i j hi hj]
    by_cases hB : ∃ x ∈ L, rowCond n k x i j
    · rw [if_pos hB]
      obtain ⟨x, hx, hcx⟩ := hB
      rw [if_pos ⟨x, List.mem_cons_of_mem _ hx, hcx⟩]
    · rw [if_neg hB, hg1 i j hi hj]
      by_cases hC : rowCond n k r i j
      · rw [if_pos hC, if_pos ⟨r, List.mem_cons_self _ _, hC⟩]
      · rw [if_neg hC, if_neg]
        rintro ⟨x, hx, hcx⟩
        rcases List.mem_cons.mp hx with rfl | hx
        · exact hC hcx
        · exact hB ⟨x, hx, hcx⟩

theorem ringLattice_spec (marker : ℚ) (n k : Nat) (hn : 1 ≤ n) :
    dims n (ringLattice n k marker) ∧
    ∀ i j, i < n → j < n →
      (ringLattice n k marker).get i j =
        if ∃ r, r < n ∧ rowCond n k r i j then marker else 0 := by
  obtain ⟨hd, hg⟩ := lattice_fold_spec marker n k hn (List.range n) (Matrix.new n)
    (dims_new n) (fun r hr => List.mem_range.mp hr)
  refine ⟨hd, fun i j hi hj => ?_⟩
  show (ringLattice n k marker).get i j = _
  unfold ringLattice
  rw [hg i j hi hj, get_new]
  refine if_congr ⟨?_, ?_⟩ rfl rfl
  · rintro ⟨r, hr, hc⟩
    exact ⟨r, List.mem_range.mp hr, hc⟩
  · rintro ⟨r, hr, hc⟩
    exact ⟨r, List.mem_range.mpr hr, hc⟩

/-! ### Ring-lattice adjacency arithmetic -/

lemma add_mod_ne_self {n i s : Nat} (hi : i < n) (hs1 : 1 ≤ s) (hs2 : s < n) :
    (i + s) % n ≠ i := by
  intro h
  by_cases hc : i + s < n
  · rw [Nat.mod_eq_of_lt hc] at h; omega
  · rw [Nat.mod_eq_sub_mod (by omega), Nat.mod_eq_of_lt (by omega)] at h; omega

theorem rowCond_iff_ringAdj (n k i j : Nat) (hn : 1 ≤ n) (hk : k < n)
    (hke : k % 2 = 0) (hi : i < n) (hj : j < n) :
    (∃ r, r < n ∧ rowCond n k r i j) ↔ ringAdj n k i j := by
  have hhalf : k / 2 < n := by omega
  have hkk : 2 * (k / 2) = k := by omega
  constructor
  · rintro ⟨r, hr, t, ht, hne, hmt⟩
    have hteq : ¬ t = k / 2 := by
      intro hteq
      apply hne
      rw [hteq, show n - k / 2 + r + k / 2 = n + r from by omega,
        Nat.add_mod_left, Nat.mod_eq_of_lt hr]
    rcases hmt with ⟨hir, hjc⟩ | ⟨hjr, hic⟩
    · subst hir
      by_cases hth : t < k / 2
      · refine ⟨k / 2 - t, Finset.mem_Icc.mpr (by omega), Or.inr ?_⟩
        rw [show n - k / 2 + i + t = n - (k / 2 - t) + i from by omega] at hjc
        rw [hjc, Nat.mod_add_mod,
          show n - (k / 2 - t) + i + (k / 2 - t) = n + i from by omega,
          Nat.add_mod_left, Nat.mod_eq_of_lt hi]
      · refine ⟨t - k / 2, Finset.mem_Icc.mpr (by omega), Or.inl ?_⟩
        rw [hjc, show n - k / 2 + i + t = n + (i + (t - k / 2)) from by omega,
          Nat.add_mod_left]
    · subst hjr
      by_cases hth : t < k / 2
      · refine ⟨k / 2 - t, Finset.mem_Icc.mpr (by omega), Or.inl ?_⟩
        rw [show n - k / 2 + j + t = n - (k / 2 - t) + j from by omega] at hic
        rw [hic, Nat.mod_add_mod,
          show n - (k / 2 - t) + j + (k / 2 - t) = n + j from by omega,
          Nat.add_mod_left, Nat.mod_eq_of_lt hj]
      · refine ⟨t - k / 2, Finset.mem_Icc.mpr (by omega), Or.inr ?_⟩
        rw [hic, show n - k / 2 + j + t = n + (j + (t - k / 2)) from by omega,
          Nat.add_mod_left]
  · rintro ⟨s, hs, hd⟩
    obtain ⟨hs1, hs2⟩ := Finset.mem_Icc.mp hs
    have hsn : s < n := by omega
    rcases hd with hsj | hsi
    · refine ⟨i, hi, k / 2 + s, by omega, ?_, Or.inl ⟨rfl, ?_⟩⟩
      · rw [show n - k / 2 + i + (k / 2 + s) = n + (i + s) from by omega,
          Nat.add_mod_left]
        exact add_mod_ne_self hi hs1 hsn
      · rw [show n - k / 2 + i + (k / 2 + s) = n + (i + s) from by omega,
          Nat.add_mod_left]
        exact hsj
    · refine ⟨j, hj, k / 2 + s, by omega, ?_, Or.inr ⟨rfl, ?_⟩⟩
      · rw [show n - k / 2 + j + (k / 2 + s) = n + (j + s) from by omega,
          Nat.add_mod_left]
        exact add_mod_ne_self hj hs1 hsn
      · rw [show n - k / 2 + j + (k / 2 + s) = n + (j + s) from by omega,
          Nat.add_mod_left]
        exact hsi

theorem ringLattice_get (n k : Nat) (marker : ℚ) (hn : 1 ≤ n) (hk : k < n)
    (hke : k % 2 = 0) (i j : Nat) (hi : i < n) (hj : j < n) :
    (ringLattice n k marker).get i j = if ringAdj n k i j then marker else 0 := by
  rw [(ringLattice_spec marker n k hn).2 i j hi hj]
  exact if_congr (rowCond_iff_ringAdj n k i j hn hk hke hi hj) rfl rfl

lemma ringAdj_filter_eq (n k i : Nat) (hn : 1 ≤ n) (hk : k < n) (hi : i < n) :
    (Finset.range n).filter (fun j => ringAdj n k i j) =
      (Finset.Icc 1 (k / 2) ∪ (Finset.Icc 1 (k / 2)).image (fun s => n - s)).image
        (fun d => (i + d) % n) := by
  have hhalf : k / 2 < n := by omega
  ext j
  simp only [Finset.mem_filter, Finset.mem_range, Finset.mem_image, Finset.mem_union]
  constructor
  · rintro ⟨hj, hadj⟩
    obtain ⟨s, hs, hd⟩ := hadj
    obtain ⟨hs1, hs2⟩ := Finset.mem_Icc.mp hs
    rcases hd with hd | hd
    · exact ⟨s, Or.inl hs, hd.symm⟩
    · refine ⟨n - s, Or.inr ⟨s, hs, rfl⟩, ?_⟩
      rw [hd, Nat.mod_add_mod, show j + s + (n - s) = j + n from by omega,
        Nat.add_mod_right, Nat.mod_eq_of_lt hj]
  · rintro ⟨d, hd, hdj⟩
    have hjn : j < n := by rw [← hdj]; exact Nat.mod_lt _ (by omega)
    refine ⟨hjn, ?_⟩
    rcases hd with hd | ⟨s, hs, rfl⟩
    · exact ⟨d, hd, Or.inl hdj.symm⟩
    · obtain ⟨hs1, hs2⟩ := Finset.mem_Icc.mp hs
      refine ⟨s, hs, Or.inr ?_⟩
      rw [← hdj, Nat.mod_add_mod, show i + (n - s) + s = i + n from by omega,
        Nat.add_mod_right, Nat.mod_eq_of_lt hi]

lemma card_offsets (n k : Nat) (hn : 1 ≤ n) (hk : k < n) (hke : k % 2 = 0) :
    (Finset.Icc 1 (k / 2) ∪ (Finset.Icc 1 (k / 2)).image (fun s => n - s)).card = k := by
  have hkk : 2 * (k / 2) = k := by omega
  have hhalf : k / 2 < n := by omega
  have hinj : Set.InjOn (fun s => n - s) (Finset.Icc 1 (k / 2)) := by
    intro a ha b hb hab
    obtain ⟨ha1, ha2⟩ := Finset.mem_Icc.mp (Finset.mem_coe.mp ha)
    obtain ⟨hb1, hb2⟩ := Finset.mem_Icc.mp (Finset.mem_coe.mp hb)
    simp only at hab
    omega
  have hdisj : Disjoint (Finset.Icc 1 (k / 2))
      ((Finset.Icc 1 (k / 2)).image (fun s => n - s)) := by
    rw [Finset.disjoint_left]
    intro a ha hb
    obtain ⟨ha1, ha2⟩ := Finset.mem_Icc.mp ha
    obtain ⟨s, hs, heq⟩ := Finset.mem_image.mp hb
    obtain ⟨hs1, hs2⟩ := Finset.mem_Icc.mp hs
    omega
  rw [Finset.card_union_of_disjoint hdisj, Finset.card_image_of_injOn hinj,
    Nat.card_Icc]
  omega

lemma card_ringAdj (n k i : Nat) (hn : 1 ≤ n) (hk : k < n) (hke : k % 2 = 0)
    (hi : i < n) :
    ((Finset.range n).filter (fun j => ringAdj n k i j)).card = k := by
  have hhalf : k / 2 < n := by omega
  rw [ringAdj_filter_eq n k i hn hk hi]
  have hbound : ∀ x ∈ Finset.Icc 1 (k / 2) ∪ (Finset.Icc 1 (k / 2)).image
      (fun s => n - s), 1 ≤ x ∧ x < n := by
    intro x hx
    rcases Finset.mem_union.mp hx with hx | hx
    · obtain ⟨h1, h2⟩ := Finset.mem_Icc.mp hx
      omega
    · obtain ⟨s, hs, rfl⟩ := Finset.mem_image.mp hx
      obtain ⟨h1, h2⟩ := Finset.mem_Icc.mp hs
      omega
  have hinj : Set.InjOn (fun d => (i + d) % n)
      ↑(Finset.Icc 1 (k / 2) ∪ (Finset.Icc 1 (k / 2)).image (fun s => n - s)) := by
    intro a ha b hb hab
    obtain ⟨ha1, ha2⟩ := hbound a (Finset.mem_coe.mp ha)
    obtain ⟨hb1, hb2⟩ := hbound b (Finset.mem_coe.mp hb)
    simp only at hab
    have hmod : a ≡ b [MOD n] := Nat.ModEq.add_left_cancel' i hab
    rwa [Nat.ModEq, Nat.mod_eq_of_lt ha2, Nat.mod_eq_of_lt hb2] at hmod
  rw [Finset.card_image_of_injOn hinj, card_offsets n k hn hk hke]

lemma Symm_ringLattice (n k : Nat) (marker : ℚ) (hn : 1 ≤ n) :
    Symm (ringLattice n k marker) := by
  obtain ⟨hd, hg⟩ := ringLattice_spec marker n k hn
  intro i j hi hj
  rw [hd.1] at hi hj
  rw [hg i j hi hj, hg j i hj hi]
  refine if_congr ⟨?_, ?_⟩ rfl rfl <;>
  · rintro ⟨r, hr, t, ht, hne, hmt⟩
    exact ⟨r, hr, t, ht, hne, hmt.symm⟩

lemma DiagZero_ringLattice (n k : Nat) (marker : ℚ) (hn : 1 ≤ n) :
    DiagZero (ringLattice n k marker) := by
  obtain ⟨hd, hg⟩ := ringLattice_spec marker n k hn
  intro i hi
  rw [hd.1] at hi
  rw [hg i i hi hi, if_neg]
  rintro ⟨r, hr, t, ht, hne, hmt⟩
  rcases hmt with ⟨h1, h2⟩ | ⟨h1, h2⟩ <;> exact hne (h2.symm.trans h1)

/-! ### Invariant preservation by `put` -/

lemma Symm_put {n : Nat} {m : Matrix} (hm : dims n m) {r c : Nat}
    (hr : r < n) (hc : c < n) (hs : Symm m) (v : ℚ) : Symm (m.put r c v) := by
  intro i j hi hj
  rw [size_put, hm.1] at hi hj
  rw [get_put m hm r c i j hr hc hi hj v, get_put m hm r c j i hr hc hj hi v]
  by_cases h : (i = r ∧ j = c) ∨ (i = c ∧ j = r)
  · rw [if_pos h, if_pos (by tauto)]
  · rw [if_neg h, if_neg (by tauto)]
    exact hs i j (by rw [hm.1]; exact hi) (by rw [hm.1]; exact hj)

lemma DiagZero_put {n : Nat} {m : Matrix} (hm : dims n m) {r c : Nat}
    (hr : r < n) (hc : c < n) (hne : r ≠ c) (hz : DiagZero m) (v : ℚ) :
    DiagZero (m.put r c v) := by
  intro i hi
  rw [size_put, hm.1] at hi
  rw [get_put m hm r c i i hr hc hi hi v, if_neg]
  · exact hz i (by rw [hm.1]; exact hi)
  · rintro (⟨h1, h2⟩ | ⟨h1, h2⟩)
    · exact hne (h1.symm.trans h2)
    · exact hne (h2.symm.trans h1)

/-- Combined structural invariant carried through rewiring and simulation. -/
def MInv (n : Nat) (m : Matrix) : Prop :=
  dims n m ∧ Symm m ∧ DiagZero m

/-! ### Edge-count effect of one accepted rewire -/

lemma edgeCount_rewire_le {n : Nat} {m : Matrix} (hm : dims n m) (hsym : Symm m)
    {marker : ℚ} (hmk : marker ≠ 0) {row col c : Nat}
    (hrow : row < n) (hcol : col < n) (hc : c < n) (hrc : col ≠ row) (hcr : c ≠ row)
    (hval : m.get row col = marker) :
    edgeCount ((((m.put row col 0).put col row 0).put row c marker).put c row marker)
      ≤ edgeCount m := by
  set m4 := (((m.put row col 0).put col row 0).put row c marker).put c row marker with hm4
  have hd1 : dims n (m.put row col 0) := dims_put hm _ _ _
  have hd2 : dims n ((m.put row col 0).put col row 0) := dims_put hd1 _ _ _
  have hd3 : dims n (((m.put row col 0).put col row 0).put row c marker) :=
    dims_put hd2 _ _ _
  have hd4 : dims n m4 := dims_put hd3 _ _ _
  have hget : ∀ i j, i < n → j < n → m4.get i j =
      if (i = row ∧ j = c) ∨ (i = c ∧ j = row) then marker
      else if (i = row ∧ j = col) ∨ (i = col ∧ j = row) then 0
      else m.get i j := by
    intro i j hi hj
    rw [hm4, get_put _ hd3 c row i j hc hrow hi hj,
      get_put _ hd2 row c i j hrow hc hi hj,
      get_put _ hd1 col row i j hcol hrow hi hj,
      get_put m hm row col i j hrow hcol hi hj]
    split_ifs <;> first | rfl | tauto
  unfold edgeCount
  rw [hd4.1, hm.1]
  apply Finset.card_le_card_of_injOn
    (fun p => if p = (row, c) then (row, col) else if p = (c, row) then (col, row) else p)
  · intro p hp
    obtain ⟨hpS, hpd, hpz⟩ := Finset.mem_filter.mp hp
    obtain ⟨hpi, hpj⟩ := Finset.mem_product.mp hpS
    rw [Finset.mem_range] at hpi hpj
    by_cases e1 : p = (row, c)
    · rw [if_pos e1]
      refine Finset.mem_filter.mpr ⟨Finset.mem_product.mpr
        ⟨Finset.mem_range.mpr hrow, Finset.mem_range.mpr hcol⟩, ?_, ?_⟩
      · exact fun he => hrc (he.symm)
      · rw [hval]; exact hmk
    · rw [if_neg e1]
      by_cases e2 : p = (c, row)
      · rw [if_pos e2]
        refine Finset.mem_filter.mpr ⟨Finset.mem_product.mpr
          ⟨Finset.mem_range.mpr hcol, Finset.mem_range.mpr hrow⟩, hrc, ?_⟩
        · rw [hsym col row (by rw [hm.1]; exact hcol) (by rw [hm.1]; exact hrow), hval]
          exact hmk
      · rw [if_neg e2]
        refine Finset.mem_filter.mpr ⟨hpS, hpd, ?_⟩
        have hval4 := hget p.1 p.2 hpi hpj
        have hc1 : ¬((p.1 = row ∧ p.2 = c) ∨ (p.1 = c ∧ p.2 = row)) := by
          rintro (⟨h1, h2⟩ | ⟨h1, h2⟩)
          · exact e1 (Prod.ext h1 h2)
          · exact e2 (Prod.ext h1 h2)
        rw [if_neg hc1] at hval4
        by_cases hc2 : (p.1 = row ∧ p.2 = col) ∨ (p.1 = col ∧ p.2 = row)
        · rw [if_pos hc2] at hval4
          exact absurd hval4 hpz
        · rw [if_neg hc2] at hval4
          rw [← hval4]
          exact hpz
  · intro p1 hp1 p2 hp2 hf
    simp only [Finset.coe_filter, Set.mem_setOf_eq] at hp1 hp2
    obtain ⟨hp1S, hp1d, hp1z⟩ := hp1
    obtain ⟨hp2S, hp2d, hp2z⟩ := hp2
    simp only at hf
    by_cases hcc : c = col
    · have hid : ∀ p : Nat × Nat,
          (if p = (row, c) then ((row, col) : Nat × Nat)
           else if p = (c, row) then (col, row) else p) = p := by
        intro p
        split_ifs with h1 h2
        · rw [h1, hcc]
        · rw [h2, hcc]
        · rfl
      rw [hid p1, hid p2] at hf
      exact hf
    · have hn1 : ¬((row = row ∧ col = c) ∨ (row = c ∧ col = row)) := by
        rintro (⟨h1, h2⟩ | ⟨h1, h2⟩)
        · exact hcc h2.symm
        · exact hcr h1.symm
      have hz1 : m4.get row col = 0 := by
        rw [hget row col hrow hcol, if_neg hn1, if_pos (Or.inl ⟨rfl, rfl⟩)]
      have hn2 : ¬((col = row ∧ row = c) ∨ (col = c ∧ row = row)) := by
        rintro (⟨h1, h2⟩ | ⟨h1, h2⟩)
        · exact hrc h1
        · exact hcc h1.symm
      have hz2 : m4.get col row = 0 := by
        rw [hget col row hcol hrow, if_neg hn2, if_pos (Or.inr ⟨rfl, rfl⟩)]
      have hnc1 : p1 ≠ (row, col) := fun he => hp1z (by rw [he]; exact hz1)
      have hnc2 : p1 ≠ (col, row) := fun he => hp1z (by rw [he]; exact hz2)
      have hnc3 : p2 ≠ (row, col) := fun he => hp2z (by rw [he]; exact hz1)
      have hnc4 : p2 ≠ (col, row) := fun he => hp2z (by rw [he]; exact hz2)
      by_cases e11 : p1 = (row, c) <;> by_cases e21 : p2 = (row, c)
      · rw [e11, e21]
      · rw [if_pos e11, if_neg e21] at hf
        by_cases e22 : p2 = (c, row)
        · rw [if_pos e22] at hf
          exact absurd (congrArg Prod.fst hf).symm hrc
        · rw [if_neg e22] at hf
          exact absurd hf.symm hnc3
      · rw [if_neg e11, if_pos e21] at hf
        by_cases e12 : p1 = (c, row)
        · rw [if_pos e12] at hf
          exact absurd (congrArg Prod.fst hf) hrc
        · rw [if_neg e12] at hf
          exact absurd hf hnc1
      · rw [if_neg e11, if_neg e21] at hf
        by_cases e12 : p1 = (c, row) <;> by_cases e22 : p2 = (c, row)
        · rw [e12, e22]
        · rw [if_pos e12, if_neg e22] at hf
          exact absurd hf.symm hnc4
        · rw [if_neg e12, if_pos e22] at hf
          exact absurd hf hnc2
        · rw [if_neg e12, if_neg e22] at hf
          exact hf

/-! ### Phase B: invariant and edge-count preservation -/

set_option maxHeartbeats 1000000

lemma rewire_inv_scan (n : Nat) (marker : ℚ) (hmk : marker ≠ 0) (row col : Nat)
    (hrow : row < n) (hcol : col < n) (hrc : col ≠ row) (N : Nat) :
    ∀ (L : List Nat) (s : Matrix × Rng), (∀ x ∈ L, x < n) →
      MInv n s.1 → edgeCount s.1 ≤ N → s.1.get row col = marker →
      MInv n (rewireScan n marker row col L s).1 ∧
        edgeCount (rewireScan n marker row col L s).1 ≤ N := by
  intro L
  induction L with
  | nil => intro s _ hI hN _; exact ⟨hI, hN⟩
  | cons x L ih =>
    intro s hL hI hN hv
    have hx : x < n := hL x (List.mem_cons_self _ _)
    obtain ⟨hdm, hsym, hdg⟩ := hI
    by_cases hxr : x = row
    · rw [rewireScan, if_pos hxr]
      exact ih s (fun y hy => hL y (List.mem_cons_of_mem _ hy)) ⟨hdm, hsym, hdg⟩ hN hv
    · rw [rewireScan, if_neg hxr]
      by_cases hd : (s.2.next).1 ≤ 1 / (n : ℚ)
      · rw [if_pos hd]
        dsimp only
        refine ⟨⟨?_, ?_, ?_⟩, ?_⟩
        · exact dims_put (dims_put (dims_put (dims_put hdm _ _ _) _ _ _) _ _ _) _ _ _
        · exact Symm_put (dims_put (dims_put (dims_put hdm _ _ _) _ _ _) _ _ _) hx hrow
            (Symm_put (dims_put (dims_put hdm _ _ _) _ _ _) hrow hx
              (Symm_put (dims_put hdm _ _ _) hcol hrow
                (Symm_put hdm hrow hcol hsym _) _) _) _
        · exact DiagZero_put (dims_put (dims_put (dims_put hdm _ _ _) _ _ _) _ _ _) hx hrow
            hxr
            (DiagZero_put (dims_put (dims_put hdm _ _ _) _ _ _) hrow hx
              (fun he => hxr he.symm)
              (DiagZero_put (dims_put hdm _ _ _) hcol hrow hrc
                (DiagZero_put hdm hrow hcol (fun he => hrc he.symm) hdg _) _) _) _
        · exact le_trans
            (edgeCount_rewire_le hdm hsym hmk hrow hcol hx hrc hxr hv) hN
      · rw [if_neg hd]
        exact ih (s.1, (s.2.next).2) (fun y hy => hL y (List.mem_cons_of_mem _ hy))
          ⟨hdm, hsym, hdg⟩ hN hv

lemma rewire_inv_pair (n : Nat) (beta marker : ℚ) (hmk : marker ≠ 0) (row : Nat)
    (hrow : row < n) (N : Nat) (s : Matrix × Rng) (col : Nat) (hcol : col < row)
    (hI : MInv n s.1) (hN : edgeCount s.1 ≤ N) :
    MInv n (rewirePair n beta marker row s col).1 ∧
      edgeCount (rewirePair n beta marker row s col).1 ≤ N := by
  unfold rewirePair
  by_cases hv : s.1.get row col = marker
  · rw [if_pos hv]
    dsimp only
    by_cases hd : (s.2.next).1 ≤ beta
    · rw [if_pos hd]
      exact rewire_inv_scan n marker hmk row col hrow (lt_trans hcol hrow)
        (Nat.ne_of_lt hcol) N (List.range n) (s.1, (s.2.next).2)
        (fun x hx => List.mem_range.mp hx) hI hN hv
    · rw [if_neg hd]
      exact ⟨hI, hN⟩
  · rw [if_neg hv]
    exact ⟨hI, hN⟩

lemma rewire_inv_phase (n : Nat) (beta marker : ℚ) (hmk : marker ≠ 0) (N : Nat)
    (s : Matrix × Rng) (hI : MInv n s.1) (hN : edgeCount s.1 ≤ N) :
    MInv n (rewirePhase n beta marker s).1 ∧
      edgeCount (rewirePhase n beta marker s).1 ≤ N := by
  unfold rewirePhase
  apply foldl_invariant (fun st : Matrix × Rng => MInv n st.1 ∧ edgeCount st.1 ≤ N)
  · intro a row hrow h
    unfold rewireRow
    apply foldl_invariant (fun st : Matrix × Rng => MInv n st.1 ∧ edgeCount st.1 ≤ N)
    · intro b col hcol h2
      exact rewire_inv_pair n beta marker hmk row (List.mem_range.mp hrow) N b col
        (List.mem_range.mp hcol) h2.1 h2.2
    · exact h
  · exact ⟨hI, hN⟩

lemma MInv_wattz (n k : Nat) (beta marker : ℚ) (hmk : marker ≠ 0) (r : Rng)
    (hn : 1 ≤ n) :
    MInv n (Matrix.wattz_strogatz n k beta marker r).1 ∧
      edgeCount (Matrix.wattz_strogatz n k beta marker r).1 ≤
        edgeCount (ringLattice n k marker) := by
  unfold Matrix.wattz_strogatz
  exact rewire_inv_phase n beta marker hmk _ _
    ⟨(ringLattice_spec marker n k hn).1, Symm_ringLattice n k marker hn,
      DiagZero_ringLattice n k marker hn⟩ (le_refl _)

/-! ### Simulation: shape of the per-recipient update -/

lemma updateRecipient_cases (c o : ℚ) (sd : Nat) (msg : ℚ) (s : Matrix × List ℚ)
    (rcp : Nat) :
    updateRecipient c o sd msg s rcp = s ∨
    (0 < s.1.get sd rcp ∧ ∃ v x : ℚ,
      updateRecipient c o sd msg s rcp = (s.1.put sd rcp v, s.2.set rcp x)) := by
  simp only [updateRecipient]
  split
  · exact Or.inl rfl
  · rename_i hg
    split
    · refine Or.inr ⟨not_le.mp hg,
        (if s.1.get sd rcp + (c - |msg - s.2.getD rcp 0|) / 100 > 1 then 1
         else s.1.get sd rcp + (c - |msg - s.2.getD rcp 0|) / 100),
        (if msg < s.2.getD rcp 0
         then s.2.getD rcp 0 - |s.1.get sd rcp * ((msg - s.2.getD rcp 0) / 100)|
         else s.2.getD rcp 0 + |s.1.get sd rcp * ((msg - s.2.getD rcp 0) / 100)|), ?_⟩
      rw [← apply_ite (fun y : ℚ => s.2.set rcp y)]
    · split
      · refine Or.inr ⟨not_le.mp hg,
          (if s.1.get sd rcp - (|msg - s.2.getD rcp 0| - o) / 100 < 0 then 0
           else s.1.get sd rcp - (|msg - s.2.getD rcp 0| - o) / 100),
          (if msg < s.2.getD rcp 0
           then s.2.getD rcp 0 + |s.1.get sd rcp * ((msg - s.2.getD rcp 0) / 100)|
           else s.2.getD rcp 0 - |s.1.get sd rcp * ((msg - s.2.getD rcp 0) / 100)|), ?_⟩
        rw [← apply_ite (fun y : ℚ => s.2.set rcp y)]
      · exact Or.inl rfl

/-! ### Simulation: invariant preservation -/

lemma MInv_updateRecipient (n : Nat) (c o : ℚ) (sd : Nat) (msg : ℚ) (hsd : sd < n)
    (s : Matrix × List ℚ) (rcp : Nat) (hrcp : rcp < n) (hI : MInv n s.1) :
    MInv n (updateRecipient c o sd msg s rcp).1 := by
  rcases updateRecipient_cases c o sd msg s rcp with heq | ⟨hpos, v, x, heq⟩
  · rw [heq]; exact hI
  · rw [heq]
    have hne : sd ≠ rcp := by
      intro he
      rw [he] at hpos
      rw [hI.2.2 rcp (by rw [hI.1.1]; exact hrcp)] at hpos
      exact lt_irrefl 0 hpos
    exact ⟨dims_put hI.1 _ _ _, Symm_put hI.1 hsd hrcp hI.2.1 _,
      DiagZero_put hI.1 hsd hrcp hne hI.2.2 _⟩

lemma MInv_simTick (n : Nat) (c o : ℚ) (sd : Nat) (msg : ℚ) (hsd : sd < n)
    (s : Matrix × List ℚ) (hI : MInv n s.1) : MInv n (simTick n c o sd msg s).1 := by
  show MInv n ((List.range n).foldl (updateRecipient c o sd msg) s).1
  apply foldl_invariant (fun st : Matrix × List ℚ => MInv n st.1)
  · intro a rcp hrcp ha
    exact MInv_updateRecipient n c o sd msg hsd a rcp (List.mem_range.mp hrcp) ha
  · exact hI

lemma MInv_runTicks (n : Nat) (c o : ℚ) :
    ∀ (ticks : List (Nat × ℚ)) (s : Matrix × List ℚ), (∀ p ∈ ticks, p.1 < n) →
      MInv n s.1 → MInv n (runTicks n c o ticks s).1 := by
  intro ticks
  induction ticks with
  | nil => intro s _ hI; exact hI
  | cons t rest ih =>
    intro s hp hI
    rw [runTicks]
    exact ih _ (fun p hp2 => hp p (List.mem_cons_of_mem _ hp2))
      (MInv_simTick n c o t.1 t.2 (hp t (List.mem_cons_self _ _)) s hI)

/-! ### Weight bounds -/

lemma entries01_new (n : Nat) : entries01 (Matrix.new n) := by
  intro x hx
  have hx0 := List.eq_of_mem_replicate hx
  rw [hx0]
  norm_num

lemma entries01_put {m : Matrix} (hm : entries01 m) {v : ℚ} (h0 : 0 ≤ v) (h1 : v ≤ 1)
    (r c : Nat) : entries01 (m.put r c v) := by
  intro x hx
  rcases mem_of_mem_set _ _ _ _ hx with hx2 | rfl
  · rcases mem_of_mem_set _ _ _ _ hx2 with hx3 | rfl
    · exact hm x hx3
    · exact ⟨h0, h1⟩
  · exact ⟨h0, h1⟩

lemma get_bounded {m : Matrix} (hm : entries01 m) (i j : Nat) :
    0 ≤ m.get i j ∧ m.get i j ≤ 1 := by
  rcases getD_mem_or m.data (m.index_for i j) with h | h
  · exact hm _ h
  · show 0 ≤ m.data.getD (m.index_for i j) 0 ∧ m.data.getD (m.index_for i j) 0 ≤ 1
    rw [h]
    norm_num

lemma entries01_ringStep {row : Nat} {marker : ℚ} (h0 : 0 ≤ marker) (h1 : marker ≤ 1)
    (s : Matrix × Nat) (hs : entries01 s.1) : entries01 (ringStep row marker s).1 := by
  simp only [ringStep]
  split <;> split <;> first | exact hs | exact entries01_put hs h0 h1 _ _

lemma entries01_ringIter {row : Nat} {marker : ℚ} (h0 : 0 ≤ marker) (h1 : marker ≤ 1) :
    ∀ (fuel : Nat) (s : Matrix × Nat), entries01 s.1 →
      entries01 (ringIter row marker fuel s).1 := by
  intro fuel
  induction fuel with
  | zero => intro s h; exact h
  | succ fuel ih =>
    intro s h
    exact ih _ (entries01_ringStep h0 h1 s h)

lemma entries01_ringLattice (n k : Nat) (marker : ℚ) (h0 : 0 ≤ marker)
    (h1 : marker ≤ 1) : entries01 (ringLattice n k marker) := by
  unfold ringLattice
  apply foldl_invariant (fun m : Matrix => entries01 m)
  · intro a row _ ha
    unfold ringRow
    exact entries01_ringIter h0 h1 (k + 1) (a, a.size - k / 2 + row) ha
  · exact entries01_new n

lemma entries01_rewireScan (n : Nat) (marker : ℚ) (h0 : 0 ≤ marker) (h1 : marker ≤ 1)
    (row col : Nat) : ∀ (L : List Nat) (s : Matrix × Rng), entries01 s.1 →
      entries01 (rewireScan n marker row col L s).1 := by
  intro L
  induction L with
  | nil => intro s h; exact h
  | cons x L ih =>
    intro s h
    by_cases hxr : x = row
    · rw [rewireScan, if_pos hxr]
      exact ih s h
    · rw [rewireScan, if_neg hxr]
      by_cases hd : (s.2.next).1 ≤ 1 / (n : ℚ)
      · rw [if_pos hd]
        dsimp only
        exact entries01_put (entries01_put (entries01_put (entries01_put h
          (le_refl 0) (by norm_num) _ _) (le_refl 0) (by norm_num) _ _) h0 h1 _ _) h0 h1 _ _
      · rw [if_neg hd]
        exact ih _ h

lemma entries01_rewirePhase (n : Nat) (beta marker : ℚ) (h0 : 0 ≤ marker)
    (h1 : marker ≤ 1) (s : Matrix × Rng) (hs : entries01 s.1) :
    entries01 (rewirePhase n beta marker s).1 := by
  unfold rewirePhase
  apply foldl_invariant (fun st : Matrix × Rng => entries01 st.1)
  · intro a row _ ha
    unfold rewireRow
    apply foldl_invariant (fun st : Matrix × Rng => entries01 st.1)
    · intro b col _ hb
      unfold rewirePair
      by_cases hv : b.1.get row col = marker
      · rw [if_pos hv]
        dsimp only
        by_cases hd : (b.2.next).1 ≤ beta
        · rw [if_pos hd]
          exact entries01_rewireScan n marker h0 h1 row col (List.range n) _ hb
        · rw [if_neg hd]
          exact hb
      · rw [if_neg hv]
        exact hb
    · exact ha
  · exact hs

lemma entries01_wattz (n k : Nat) (beta marker : ℚ) (h0 : 0 ≤ marker)
    (h1 : marker ≤ 1) (r : Rng) :
    entries01 (Matrix.wattz_strogatz n k beta marker r).1 := by
  unfold Matrix.wattz_strogatz
  exact entries01_rewirePhase n beta marker h0 h1 _
    (entries01_ringLattice n k marker h0 h1)

lemma entries01_updateRecipient (c o : ℚ) (sd : Nat) (msg : ℚ) (s : Matrix × List ℚ)
    (rcp : Nat) (h : entries01 s.1) :
    entries01 (updateRecipient c o sd msg s rcp).1 := by
  simp only [updateRecipient]
  split
  · exact h
  · rename_i hg
    have hw0 : 0 < s.1.get sd rcp := not_le.mp hg
    have hw1 : s.1.get sd rcp ≤ 1 := (get_bounded h sd rcp).2
    split
    · rename_i h1
      dsimp only
      have hd0 : 0 ≤ (c - |msg - s.2.getD rcp 0|) / 100 :=
        div_nonneg (sub_nonneg.mpr (le_of_lt h1)) (by norm_num)
      refine entries01_put h ?_ ?_ _ _
      · split_ifs with hv
        · norm_num
        · linarith
      · split_ifs with hv
        · exact le_refl 1
        · exact le_of_not_lt hv
    · split
      · rename_i h2
        dsimp only
        have hd0 : 0 ≤ (|msg - s.2.getD rcp 0| - o) / 100 :=
          div_nonneg (sub_nonneg.mpr (le_of_lt h2)) (by norm_num)
        refine entries01_put h ?_ ?_ _ _
        · split_ifs with hv
          · norm_num
          · exact le_of_not_lt hv
        · split_ifs with hv
          · norm_num
          · linarith
      · exact h

lemma entries01_simTick (n : Nat) (c o : ℚ) (sd : Nat) (msg : ℚ)
    (s : Matrix × List ℚ) (h : entries01 s.1) :
    entries01 (simTick n c o sd msg s).1 := by
  show entries01 ((List.range n).foldl (updateRecipient c o sd msg) s).1
  apply foldl_invariant (fun st : Matrix × List ℚ => entries01 st.1)
  · intro a rcp _ ha
    exact entries01_updateRecipient c o sd msg a rcp ha
  · exact h

lemma entries01_runTicks (n : Nat) (c o : ℚ) :
    ∀ (ticks : List (Nat × ℚ)) (s : Matrix × List ℚ), entries01 s.1 →
      entries01 (runTicks n c o ticks s).1 := by
  intro ticks
  induction ticks with
  | nil => intro s h; exact h
  | cons t rest ih =>
    intro s h
    rw [runTicks]
    exact ih _ (entries01_simTick n c o t.1 t.2 s h)

/-! ### The end-of-tick clamp fold -/

lemma clampFold_getD_notmem : ∀ (L : List Nat) (l : List ℚ) (a : Nat), a ∉ L →
    (L.foldl (fun ops i => ops.set i (clampOpinion (ops.getD i 0))) l).getD a 0 =
      l.getD a 0 := by
  intro L
  induction L with
  | nil => intro l a _; rfl
  | cons x L ih =>
    intro l a ha
    rw [List.foldl_cons, ih _ a (fun h => ha (List.mem_cons_of_mem _ h))]
    exact getD_set_ne _ _ _ _ (fun he => ha (he ▸ List.mem_cons_self _ _))

lemma clampFold_getD_mem : ∀ (L : List Nat) (l : List ℚ) (a : Nat), L.Nodup → a ∈ L →
    a < l.length →
    (L.foldl (fun ops i => ops.set i (clampOpinion (ops.getD i 0))) l).getD a 0 =
      clampOpinion (l.getD a 0) := by
  intro L
  induction L with
  | nil => intro l a _ ha _; simp at ha
  | cons x L ih =>
    intro l a hnd ha hlen
    rw [List.foldl_cons]
    by_cases hxa : x = a
    · subst hxa
      rw [clampFold_getD_notmem L _ x (List.nodup_cons.mp hnd).1]
      exact getD_set_self l x _ hlen
    · rcases List.mem_cons.mp ha with rfl | ha2
      · exact absurd rfl hxa
      · rw [ih _ a (List.nodup_cons.mp hnd).2 ha2 (by rw [List.length_set]; exact hlen),
          getD_set_ne _ _ _ _ hxa]

/-! ### Frame conditions of one tick -/

lemma simTick_frame_matrix (n : Nat) (c o : ℚ) (sd : Nat) (msg : ℚ) (hsd : sd < n)
    (s : Matrix × List ℚ) (hd : dims n s.1) (i j : Nat) (hi : i < n) (hj : j < n)
    (hins : i ≠ sd) (hjns : j ≠ sd) :
    (simTick n c o sd msg s).1.get i j = s.1.get i j := by
  have hstep : ∀ (a : Matrix × List ℚ) (b : Nat), b ∈ List.range n →
      (dims n a.1 ∧ a.1.get i j = s.1.get i j) →
      (dims n (updateRecipient c o sd msg a b).1 ∧
        (updateRecipient c o sd msg a b).1.get i j = s.1.get i j) := by
    intro a rcp hrcp h
    obtain ⟨had, hag⟩ := h
    rcases updateRecipient_cases c o sd msg a rcp with heq | ⟨hpos, v, x, heq⟩
    · rw [heq]; exact ⟨had, hag⟩
    · rw [heq]
      refine ⟨dims_put had _ _ _, ?_⟩
      rw [get_put a.1 had sd rcp i j hsd (List.mem_range.mp hrcp) hi hj v, if_neg, hag]
      rintro (⟨hh1, hh2⟩ | ⟨hh1, hh2⟩)
      · exact hins hh1
      · exact hjns hh2
  exact (foldl_invariant
    (fun st : Matrix × List ℚ => dims n st.1 ∧ st.1.get i j = s.1.get i j)
    (updateRecipient c o sd msg) (List.range n) s hstep ⟨hd, rfl⟩).2

lemma simTick_frame_opinion (n : Nat) (c o : ℚ) (sd : Nat) (msg : ℚ) (hsd : sd < n)
    (s : Matrix × List ℚ) (hd : dims n s.1) (hlen : s.2.length = n)
    (a : Nat) (ha : a < n) (hz : s.1.get sd a = 0) :
    (simTick n c o sd msg s).2.getD a 0 = clampOpinion (s.2.getD a 0) := by
  have hstep : ∀ (st : Matrix × List ℚ) (rcp : Nat), rcp ∈ List.range n →
      (dims n st.1 ∧ st.1.get sd a = 0 ∧ st.2.getD a 0 = s.2.getD a 0 ∧
        st.2.length = n) →
      (dims n (updateRecipient c o sd msg st rcp).1 ∧
        (updateRecipient c o sd msg st rcp).1.get sd a = 0 ∧
        (updateRecipient c o sd msg st rcp).2.getD a 0 = s.2.getD a 0 ∧
        (updateRecipient c o sd msg st rcp).2.length = n) := by
    intro st rcp hrcp h
    obtain ⟨hstd, hstz, hsto, hstl⟩ := h
    have hrcpn := List.mem_range.mp hrcp
    rcases updateRecipient_cases c o sd msg st rcp with heq | ⟨hpos, v, x, heq⟩
    · rw [heq]; exact ⟨hstd, hstz, hsto, hstl⟩
    · have hra : rcp ≠ a := by
        intro he
        rw [he, hstz] at hpos
        exact lt_irrefl 0 hpos
      rw [heq]
      refine ⟨dims_put hstd _ _ _, ?_, ?_, ?_⟩
      · rw [get_put st.1 hstd sd rcp sd a hsd hrcpn hsd ha v, if_neg, hstz]
        rintro (⟨hh1, hh2⟩ | ⟨hh1, hh2⟩)
        · exact hra hh2.symm
        · exact hra ((hh2.trans hh1).symm)
      · dsimp only
        rw [getD_set_ne _ _ _ _ hra, hsto]
      · dsimp only
        rw [List.length_set]
        exact hstl
  have hfold := foldl_invariant
    (fun st : Matrix × List ℚ => dims n st.1 ∧ st.1.get sd a = 0 ∧
      st.2.getD a 0 = s.2.getD a 0 ∧ st.2.length = n)
    (updateRecipient c o sd msg) (List.range n) s hstep ⟨hd, hz, rfl, hlen⟩
  show ((List.range n).foldl (fun ops i => ops.set i (clampOpinion (ops.getD i 0)))
      ((List.range n).foldl (updateRecipient c o sd msg) s).2).getD a 0 = _
  rw [clampFold_getD_mem (List.range n) _ a (List.nodup_range n) (List.mem_range.mpr ha)
    (by rw [hfold.2.2.2]; exact ha), hfold.2.2.1]

/-! ### Rewiring is a no-op when β = 0 and every draw is positive -/

lemma rewirePhase_beta0_pos (n : Nat) (marker : ℚ) (f : Nat → ℚ)
    (hf : ∀ i, 0 < f i) (m : Matrix) (p : Nat) :
    (rewirePhase n 0 marker (m, ⟨f, p⟩)).1 = m := by
  have key := foldl_invariant
    (fun st : Matrix × Rng => st.1 = m ∧ ∃ q, st.2 = ⟨f, q⟩)
    (rewireRow n 0 marker) (List.range n) (m, ⟨f, p⟩) ?_ ⟨rfl, p, rfl⟩
  · exact key.1
  · intro a row _ h
    obtain ⟨ha1, q, ha2⟩ := h
    unfold rewireRow
    apply foldl_invariant (fun st : Matrix × Rng => st.1 = m ∧ ∃ q2, st.2 = ⟨f, q2⟩)
    · intro b col _ hb
      obtain ⟨hb1, q2, hb2⟩ := hb
      unfold rewirePair
      by_cases hv : b.1.get row col = marker
      · rw [if_pos hv]
        dsimp only
        have hdne : ¬ ((b.2.next).1 ≤ 0) := by
          rw [hb2]
          exact not_le.mpr (hf q2)
        rw [if_neg hdne]
        exact ⟨hb1, q2 + 1, by rw [hb2]; rfl⟩
      · rw [if_neg hv]
        exact ⟨hb1, q2, hb2⟩
    · exact ⟨ha1, q, ha2⟩

/-! ### The consensus and opposition regimes of the per-recipient update -/

lemma updateRecipient_consensus {n : Nat} (c o : ℚ) (sd rcp : Nat) (msg : ℚ)
    (net : Matrix) (ops : List ℚ) (hd : dims n net) (hsd : sd < n) (hrcp : rcp < n)
    (hlen : rcp < ops.length) (hw : 0 < net.get sd rcp)
    (hc : |msg - ops.getD rcp 0| < c) :
    (updateRecipient c o sd msg (net, ops) rcp).1.get sd rcp =
      min 1 (net.get sd rcp + (c - |msg - ops.getD rcp 0|) / 100) ∧
    (updateRecipient c o sd msg (net, ops) rcp).2.getD rcp 0 =
      (if msg < ops.getD rcp 0
       then ops.getD rcp 0 - |net.get sd rcp * ((msg - ops.getD rcp 0) / 100)|
       else ops.getD rcp 0 + |net.get sd rcp * ((msg - ops.getD rcp 0) / 100)|) := by
  have hg : ¬ (net.get sd rcp ≤ 0) := not_le.mpr hw
  simp only [updateRecipient]
  rw [if_neg hg, if_pos hc]
  dsimp only
  constructor
  · rw [get_put net hd sd rcp sd rcp hsd hrcp hsd hrcp _, if_pos (Or.inl ⟨rfl, rfl⟩)]
    by_cases hv : net.get sd rcp + (c - |msg - ops.getD rcp 0|) / 100 > 1
    · rw [if_pos hv, min_eq_left (le_of_lt hv)]
    · rw [if_neg hv, min_eq_right (not_lt.mp hv)]
  · by_cases hmo : msg < ops.getD rcp 0
    · rw [if_pos hmo, if_pos hmo, getD_set_self _ _ _ hlen]
    · rw [if_neg hmo, if_neg hmo, getD_set_self _ _ _ hlen]

lemma updateRecipient_opposition {n : Nat} (c o : ℚ) (sd rcp : Nat) (msg : ℚ)
    (net : Matrix) (ops : List ℚ) (hd : dims n net) (hsd : sd < n) (hrcp : rcp < n)
    (hlen : rcp < ops.length) (hw : 0 < net.get sd rcp) (hco : c ≤ o)
    (ho : o < |msg - ops.getD rcp 0|) :
    (updateRecipient c o sd msg (net, ops) rcp).1.get sd rcp =
      max 0 (net.get sd rcp - (|msg - ops.getD rcp 0| - o) / 100) ∧
    (updateRecipient c o sd msg (net, ops) rcp).2.getD rcp 0 =
      (if msg < ops.getD rcp 0
       then ops.getD rcp 0 + |net.get sd rcp * ((msg - ops.getD rcp 0) / 100)|
       else ops.getD rcp 0 - |net.get sd rcp * ((msg - ops.getD rcp 0) / 100)|) := by
  have hg : ¬ (net.get sd rcp ≤ 0) := not_le.mpr hw
  have hnc : ¬ (|msg - ops.getD rcp 0| < c) :=
    not_lt.mpr (le_trans hco (le_of_lt ho))
  simp only [updateRecipient]
  rw [if_neg hg, if_neg hnc, if_pos ho]
  dsimp only
  constructor
  · rw [get_put net hd sd rcp sd rcp hsd hrcp hsd hrcp _, if_pos (Or.inl ⟨rfl, rfl⟩)]
    by_cases hv : net.get sd rcp - (|msg - ops.getD rcp 0| - o) / 100 < 0
    · rw [if_pos hv, max_eq_left (le_of_lt hv)]
    · rw [if_neg hv, max_eq_right (not_lt.mp hv)]
  · by_cases hmo : msg < ops.getD rcp 0
    · rw [if_pos hmo, if_pos hmo, getD_set_self _ _ _ hlen]
    · rw [if_neg hmo, if_neg hmo, getD_set_self _ _ _ hlen]

/-! ### Claim theorems -/

set_option maxRecDepth 1000000

/-- C1, as stated, is false: a rewire target that is already connected
absorbs the new edge, so the non-self edge count can drop. With n = 4,
k = 2, β = 1 and the all-zero draw stream, the count after rewiring (6)
differs from the count immediately after Phase A (8). -/
theorem C1_counterexample :
    edgeCount (Matrix.wattz_strogatz 4 2 1 (1/2) ⟨fun _ => 0, 0⟩).1 ≠
      edgeCount (ringLattice 4 2 (1/2)) := by
  with_unfolding_all decide

/-- C1 (amended): every successful rewire attempt removes exactly one
non-self edge and writes exactly one non-self edge, but the written edge may
coincide with an edge that already exists, so for every population n ≥ 1,
degree k, and sequence of random draws, the total number of nonzero non-self
edges after the rewiring phase is at most (rather than equal to) the number
immediately after Phase A. -/
theorem C1_rewire_count_le (n k : Nat) (beta : ℚ) (r : Rng) (hn : 1 ≤ n) :
    edgeCount (Matrix.wattz_strogatz n k beta (1/2) r).1 ≤
      edgeCount (ringLattice n k (1/2)) :=
  (MInv_wattz n k beta (1/2) (by norm_num) r hn).2

/-- Witness for C1 (amended) at n = 4, k = 2, β = 1 and the all-one stream. -/
theorem C1_rewire_count_le_witness :
    1 ≤ 4 ∧ edgeCount (Matrix.wattz_strogatz 4 2 1 (1/2) ⟨fun _ => 1, 0⟩).1 ≤
      edgeCount (ringLattice 4 2 (1/2)) :=
  ⟨by norm_num, C1_rewire_count_le 4 2 1 ⟨fun _ => 1, 0⟩ (by norm_num)⟩

/-- C2, as stated, is false: `next_f64()` can return exactly 0, and the
rewiring test is `draw ≤ β`, so with β = 0 an all-zero draw stream still
rewires. Node 1 is a ring neighbour of node 2 (so the claim demands weight
1/2 at (2,1)), yet the produced graph has weight 0 there. -/
theorem C2_counterexample :
    (Matrix.wattz_strogatz 6 2 0 (1/2) ⟨fun _ => 0, 0⟩).1.get 2 1 = 0 ∧
    (1 = (2 + 1) % 6 ∨ 1 = (2 + 5) % 6) := by
  constructor
  · with_unfolding_all decide
  · decide

/-- C2 (amended): with population 6, degree 2 and rewire probability 0, if
every random draw is strictly positive (the β-test `draw ≤ 0` then always
fails), no rewiring occurs and the resulting graph is exactly the ring
lattice: node i carries the marker weight 1/2 exactly towards nodes
(i+1) mod 6 and (i-1) mod 6. -/
theorem C2_ring_when_draws_pos (f : Nat → ℚ) (hf : ∀ i, 0 < f i) :
    ∀ i j, i < 6 → j < 6 →
      (Matrix.wattz_strogatz 6 2 0 (1/2) ⟨f, 0⟩).1.get i j =
        if j = (i + 1) % 6 ∨ j = (i + 5) % 6 then 1/2 else 0 := by
  intro i j hi hj
  show (rewirePhase 6 0 (1/2) (ringLattice 6 2 (1/2), ⟨f, 0⟩)).1.get i j = _
  rw [rewirePhase_beta0_pos 6 (1/2) f hf (ringLattice 6 2 (1/2)) 0]
  have hall : ∀ i2, i2 < 6 → ∀ j2, j2 < 6 → (ringLattice 6 2 (1/2)).get i2 j2 =
      if j2 = (i2 + 1) % 6 ∨ j2 = (i2 + 5) % 6 then 1/2 else 0 := by
    with_unfolding_all decide
  exact hall i hi j hj

/-- Witness for C2 (amended) with the all-one stream at cell (0,1). -/
theorem C2_ring_when_draws_pos_witness :
    (∀ i : Nat, (0:ℚ) < 1) ∧
    (Matrix.wattz_strogatz 6 2 0 (1/2) ⟨fun _ => 1, 0⟩).1.get 0 1 = 1/2 := by
  refine ⟨fun i => one_pos, ?_⟩
  rw [C2_ring_when_draws_pos (fun _ => 1) (fun i => one_pos) 0 1 (by norm_num) (by norm_num)]
  with_unfolding_all decide

/-- C3: for every population n ≥ 1 and even degree k < n, immediately after
the ring-lattice construction every node has exactly k nonzero neighbour
edges, and a cell (i,j) is nonzero exactly when j is among the k/2 nearest
successors or predecessors of i modulo n. -/
theorem C3_ring_degree (n k : Nat) (hn : 1 ≤ n) (hke : k % 2 = 0) (hk : k < n)
    (i : Nat) (hi : i < n) :
    ((Finset.range n).filter (fun j => (ringLattice n k (1/2)).get i j ≠ 0)).card = k ∧
    ∀ j, j < n → ((ringLattice n k (1/2)).get i j ≠ 0 ↔ ringAdj n k i j) := by
  have hiff : ∀ j, j < n → ((ringLattice n k (1/2)).get i j ≠ 0 ↔ ringAdj n k i j) := by
    intro j hj
    rw [ringLattice_get n k (1/2) hn hk hke i j hi hj]
    constructor
    · intro hne
      by_contra hA
      rw [if_neg hA] at hne
      exact hne rfl
    · intro hA
      rw [if_pos hA]
      norm_num
  refine ⟨?_, hiff⟩
  have hfe : (Finset.range n).filter (fun j => (ringLattice n k (1/2)).get i j ≠ 0) =
      (Finset.range n).filter (fun j => ringAdj n k i j) := by
    ext j
    simp only [Finset.mem_filter, Finset.mem_range]
    constructor
    · rintro ⟨hj, hne⟩
      exact ⟨hj, (hiff j hj).mp hne⟩
    · rintro ⟨hj, hA⟩
      exact ⟨hj, (hiff j hj).mpr hA⟩
  rw [hfe, card_ringAdj n k i hn hk hke hi]

/-- Witness for C3 at n = 6, k = 2, node 0. -/
theorem C3_ring_degree_witness :
    (1 ≤ 6 ∧ 2 % 2 = 0 ∧ 2 < 6) ∧
    ((Finset.range 6).filter (fun j => (ringLattice 6 2 (1/2)).get 0 j ≠ 0)).card = 2 :=
  ⟨⟨by norm_num, by norm_num, by norm_num⟩,
    (C3_ring_degree 6 2 (by norm_num) (by norm_num) (by norm_num) 0 (by norm_num)).1⟩

/-- C4: the weight matrix is symmetric at every observable point of the
process: `put` itself preserves symmetry (it writes (row,col) and (col,row)
as one mutation), each per-recipient update preserves symmetry, and the
matrix is symmetric after generation and after every simulation tick. -/
theorem C4_symmetry (n k : Nat) (beta c o : ℚ) (r : Rng) (ticks : List (Nat × ℚ))
    (ops : List ℚ) (hn : 1 ≤ n) (hticks : ∀ p ∈ ticks, p.1 < n) :
    (∀ (m : Matrix) (r2 c2 : Nat) (v : ℚ), dims n m → r2 < n → c2 < n → Symm m →
      Symm (m.put r2 c2 v)) ∧
    (∀ (s : Matrix × List ℚ) (sd rcp : Nat) (msg : ℚ), sd < n → rcp < n →
      MInv n s.1 → Symm (updateRecipient c o sd msg s rcp).1) ∧
    Symm (Matrix.wattz_strogatz n k beta (1/2) r).1 ∧
    Symm (runTicks n c o ticks ((Matrix.wattz_strogatz n k beta (1/2) r).1, ops)).1 := by
  have hgen := (MInv_wattz n k beta (1/2) (by norm_num) r hn).1
  refine ⟨fun m r2 c2 v hdm h1 h2 hs => Symm_put hdm h1 h2 hs v, ?_, hgen.2.1, ?_⟩
  · intro s sd rcp msg hsd hrcp hI
    exact (MInv_updateRecipient n c o sd msg hsd s rcp hrcp hI).2.1
  · exact (MInv_runTicks n c o ticks _ hticks hgen).2.1

/-- Witness for C4 after generation at n = 2, k = 0. -/
theorem C4_symmetry_witness :
    1 ≤ 2 ∧ Symm (Matrix.wattz_strogatz 2 0 0 (1/2) ⟨fun _ => 0, 0⟩).1 :=
  ⟨by norm_num, (C4_symmetry 2 0 0 0 0 ⟨fun _ => 0, 0⟩ [] [] (by norm_num)
    (by intro p hp; simp at hp)).2.2.1⟩

/-- C5: no self-loop is ever created: the diagonal is zero after allocation,
after lattice construction, after rewiring, and after every simulation
tick. -/
theorem C5_no_self_loops (n k : Nat) (beta c o : ℚ) (r : Rng)
    (ticks : List (Nat × ℚ)) (ops : List ℚ) (hn : 1 ≤ n)
    (hticks : ∀ p ∈ ticks, p.1 < n) :
    DiagZero (Matrix.new n) ∧
    DiagZero (ringLattice n k (1/2)) ∧
    DiagZero (Matrix.wattz_strogatz n k beta (1/2) r).1 ∧
    DiagZero (runTicks n c o ticks ((Matrix.wattz_strogatz n k beta (1/2) r).1, ops)).1 := by
  have hgen := (MInv_wattz n k beta (1/2) (by norm_num) r hn).1
  refine ⟨fun i _ => get_new n i i, DiagZero_ringLattice n k (1/2) hn, hgen.2.2, ?_⟩
  exact (MInv_runTicks n c o ticks _ hticks hgen).2.2

/-- Witness for C5 after generation and one tick at n = 2, k = 0. -/
theorem C5_no_self_loops_witness :
    1 ≤ 2 ∧ DiagZero (runTicks 2 10 40 [(0, 55)]
      ((Matrix.wattz_strogatz 2 0 0 (1/2) ⟨fun _ => 0, 0⟩).1, [50, 50])).1 :=
  ⟨by norm_num, (C5_no_self_loops 2 0 0 10 40 ⟨fun _ => 0, 0⟩ [(0, 55)] [50, 50]
    (by norm_num) (by intro p hp; simp at hp; subst hp; norm_num)).2.2.2⟩

/-- C6: in the consensus regime (difference strictly below the consensus
threshold) the edge weight becomes min(1, w + (c - difference)/100) and the
recipient's opinion moves toward the message by |w·(message - opinion)/100|,
computed from the pre-update weight: it increases when the message is at
least the opinion and decreases otherwise. -/
theorem C6_consensus_update (n : Nat) (c o : ℚ) (sd rcp : Nat) (msg : ℚ)
    (net : Matrix) (ops : List ℚ) (hd : dims n net) (hsd : sd < n) (hrcp : rcp < n)
    (hlen : rcp < ops.length) (hw : 0 < net.get sd rcp)
    (hc : |msg - ops.getD rcp 0| < c) :
    (updateRecipient c o sd msg (net, ops) rcp).1.get sd rcp =
      min 1 (net.get sd rcp + (c - |msg - ops.getD rcp 0|) / 100) ∧
    (ops.getD rcp 0 ≤ msg →
      (updateRecipient c o sd msg (net, ops) rcp).2.getD rcp 0 =
        ops.getD rcp 0 + |net.get sd rcp * ((msg - ops.getD rcp 0) / 100)|) ∧
    (msg < ops.getD rcp 0 →
      (updateRecipient c o sd msg (net, ops) rcp).2.getD rcp 0 =
        ops.getD rcp 0 - |net.get sd rcp * ((msg - ops.getD rcp 0) / 100)|) := by
  obtain ⟨h1, h2⟩ := updateRecipient_consensus c o sd rcp msg net ops hd hsd hrcp hlen hw hc
  refine ⟨h1, ?_, ?_⟩
  · intro hmo
    rw [h2, if_neg (not_lt.mpr hmo)]
  · intro hmo
    rw [h2, if_pos hmo]

/-- Witness for C6: Scenario B — weight 1/2, opinion 50, message 55,
consensus threshold 10 give new weight 0.55 and new opinion 50.025. -/
theorem C6_consensus_update_witness :
    (updateRecipient 10 40 0 55 ((Matrix.new 2).put 0 1 (1/2), [50, 50]) 1).1.get 0 1 =
      11/20 ∧
    (updateRecipient 10 40 0 55 ((Matrix.new 2).put 0 1 (1/2), [50, 50]) 1).2.getD 1 0 =
      2001/40 := by
  have h := C6_consensus_update 2 10 40 0 1 55 ((Matrix.new 2).put 0 1 (1/2)) [50, 50]
    (dims_put (dims_new 2) 0 1 (1/2)) (by norm_num) (by norm_num) (by norm_num)
    (by with_unfolding_all decide) (by with_unfolding_all decide)
  constructor
  · rw [h.1]
    with_unfolding_all decide
  · rw [h.2.1 (by with_unfolding_all decide)]
    with_unfolding_all decide

/-- C7: in the opposition regime (difference strictly above the opposition
threshold, thresholds ordered c ≤ o) the edge weight becomes
max(0, w - (difference - o)/100) and the recipient's opinion moves away from
the message by |w·(message - opinion)/100|, computed from the pre-update
weight: it decreases when the message is at least the opinion and increases
otherwise. -/
theorem C7_opposition_update (n : Nat) (c o : ℚ) (sd rcp : Nat) (msg : ℚ)
    (net : Matrix) (ops : List ℚ) (hd : dims n net) (hsd : sd < n) (hrcp : rcp < n)
    (hlen : rcp < ops.length) (hw : 0 < net.get sd rcp) (hco : c ≤ o)
    (ho : o < |msg - ops.getD rcp 0|) :
    (updateRecipient c o sd msg (net, ops) rcp).1.get sd rcp =
      max 0 (net.get sd rcp - (|msg - ops.getD rcp 0| - o) / 100) ∧
    (ops.getD rcp 0 ≤ msg →
      (updateRecipient c o sd msg (net, ops) rcp).2.getD rcp 0 =
        ops.getD rcp 0 - |net.get sd rcp * ((msg - ops.getD rcp 0) / 100)|) ∧
    (msg < ops.getD rcp 0 →
      (updateRecipient c o sd msg (net, ops) rcp).2.getD rcp 0 =
        ops.getD rcp 0 + |net.get sd rcp * ((msg - ops.getD rcp 0) / 100)|) := by
  obtain ⟨h1, h2⟩ := updateRecipient_opposition c o sd rcp msg net ops hd hsd hrcp hlen
    hw hco ho
  refine ⟨h1, ?_, ?_⟩
  · intro hmo
    rw [h2, if_neg (not_lt.mpr hmo)]
  · intro hmo
    rw [h2, if_pos hmo]

/-- Witness for C7: Scenario C — weight 1/2, opinion 50, message 0,
opposition threshold 40 give new weight 0.4 and new opinion 50.25. -/
theorem C7_opposition_update_witness :
    (updateRecipient 10 40 0 0 ((Matrix.new 2).put 0 1 (1/2), [50, 50]) 1).1.get 0 1 =
      2/5 ∧
    (updateRecipient 10 40 0 0 ((Matrix.new 2).put 0 1 (1/2), [50, 50]) 1).2.getD 1 0 =
      201/4 := by
  have h := C7_opposition_update 2 10 40 0 1 0 ((Matrix.new 2).put 0 1 (1/2)) [50, 50]
    (dims_put (dims_new 2) 0 1 (1/2)) (by norm_num) (by norm_num) (by norm_num)
    (by with_unfolding_all decide) (by norm_num) (by with_unfolding_all decide)
  constructor
  · rw [h.1]
    with_unfolding_all decide
  · rw [h.2.2 (by with_unfolding_all decide)]
    with_unfolding_all decide

/-- C8: when the difference equals the consensus threshold exactly, or the
opposition threshold exactly (thresholds ordered c ≤ o), the per-recipient
update is neutral: the whole state (edge weight and opinions) is unchanged. -/
theorem C8_boundary_neutral (c o : ℚ) (sd rcp : Nat) (msg : ℚ) (net : Matrix)
    (ops : List ℚ) (hco : c ≤ o)
    (hd : |msg - ops.getD rcp 0| = c ∨ |msg - ops.getD rcp 0| = o) :
    updateRecipient c o sd msg (net, ops) rcp = (net, ops) := by
  simp only [updateRecipient]
  split
  · rfl
  · have hn1 : ¬ (|msg - ops.getD rcp 0| < c) := by
      rcases hd with h | h <;> rw [h]
      · exact lt_irrefl c
      · exact not_lt.mpr hco
    have hn2 : ¬ (|msg - ops.getD rcp 0| > o) := by
      rcases hd with h | h <;> rw [h]
      · exact not_lt.mpr hco
      · exact lt_irrefl o
    rw [if_neg hn1, if_neg hn2]

/-- Witness for C8: difference exactly equal to the consensus threshold
(10) with a live edge of weight 1/2 leaves the state unchanged. -/
theorem C8_boundary_neutral_witness :
    ((10:ℚ) ≤ 40 ∧ |(60:ℚ) - ([50, 50] : List ℚ).getD 1 0| = 10) ∧
    updateRecipient 10 40 0 60 ((Matrix.new 2).put 0 1 (1/2), [50, 50]) 1 =
      ((Matrix.new 2).put 0 1 (1/2), [50, 50]) :=
  ⟨⟨by norm_num, by with_unfolding_all decide⟩,
    C8_boundary_neutral 10 40 0 1 60 ((Matrix.new 2).put 0 1 (1/2)) [50, 50]
      (by norm_num) (Or.inl (by with_unfolding_all decide))⟩

/-- C9: for thresholds with 0 ≤ c ≤ o, every edge weight lies in [0,1] after
topology generation and after every simulation tick, for every sequence of
draws. -/
theorem C9_weight_bounds (n k : Nat) (beta c o : ℚ) (r : Rng)
    (ticks : List (Nat × ℚ)) (ops : List ℚ) (hc : 0 ≤ c) (hco : c ≤ o) :
    (∀ i j, 0 ≤ (Matrix.wattz_strogatz n k beta (1/2) r).1.get i j ∧
      (Matrix.wattz_strogatz n k beta (1/2) r).1.get i j ≤ 1) ∧
    (∀ i j, 0 ≤ (runTicks n c o ticks
        ((Matrix.wattz_strogatz n k beta (1/2) r).1, ops)).1.get i j ∧
      (runTicks n c o ticks
        ((Matrix.wattz_strogatz n k beta (1/2) r).1, ops)).1.get i j ≤ 1) := by
  have hgen := entries01_wattz n k beta (1/2) (by norm_num) (by norm_num) r
  exact ⟨fun i j => get_bounded hgen i j,
    fun i j => get_bounded (entries01_runTicks n c o ticks _ hgen) i j⟩

/-- Witness for C9 after generation and one tick at n = 4, k = 2. -/
theorem C9_weight_bounds_witness :
    ((0:ℚ) ≤ 10 ∧ (10:ℚ) ≤ 40) ∧
    (0 ≤ (runTicks 4 10 40 [(0, 55)]
        ((Matrix.wattz_strogatz 4 2 (1/2) (1/2) ⟨fun _ => 0, 0⟩).1, [50, 50, 50, 50])).1.get 0 1 ∧
      (runTicks 4 10 40 [(0, 55)]
        ((Matrix.wattz_strogatz 4 2 (1/2) (1/2) ⟨fun _ => 0, 0⟩).1, [50, 50, 50, 50])).1.get 0 1 ≤ 1) :=
  ⟨⟨by norm_num, by norm_num⟩,
    (C9_weight_bounds 4 2 (1/2) 10 40 ⟨fun _ => 0, 0⟩ [(0, 55)] [50, 50, 50, 50]
      (by norm_num) (by norm_num)).2 0 1⟩

/-- C10: a tick with sender sd only mutates sender-local state: every edge
(i,j) with i ≠ sd and j ≠ sd is unchanged, and every agent a with
weight(sd,a) = 0 (the sender itself included, its diagonal being zero) has
its opinion changed only by the end-of-tick clamp. -/
theorem C10_tick_frame (n : Nat) (c o : ℚ) (sd : Nat) (msg : ℚ) (net : Matrix)
    (ops : List ℚ) (hd : dims n net) (hlen : ops.length = n) (hsd : sd < n) :
    (∀ i j, i < n → j < n → i ≠ sd → j ≠ sd →
      (simTick n c o sd msg (net, ops)).1.get i j = net.get i j) ∧
    (∀ a, a < n → net.get sd a = 0 →
      (simTick n c o sd msg (net, ops)).2.getD a 0 = clampOpinion (ops.getD a 0)) :=
  ⟨fun i j hi hj hins hjns =>
      simTick_frame_matrix n c o sd msg hsd (net, ops) hd i j hi hj hins hjns,
   fun a ha hz => simTick_frame_opinion n c o sd msg hsd (net, ops) hd hlen a ha hz⟩

/-- Witness for C10: with sender 0, the diagonal entry (0,0) being zero, the
sender's own opinion is only clamped. -/
theorem C10_tick_frame_witness :
    ((Matrix.new 2).put 0 1 (1/2)).get 0 0 = 0 ∧
    (simTick 2 10 40 0 55 ((Matrix.new 2).put 0 1 (1/2), [50, 50])).2.getD 0 0 =
      clampOpinion (([50, 50] : List ℚ).getD 0 0) :=
  ⟨by with_unfolding_all decide,
    (C10_tick_frame 2 10 40 0 55 ((Matrix.new 2).put 0 1 (1/2)) [50, 50]
      (dims_put (dims_new 2) 0 1 (1/2)) rfl (by norm_num)).2 0 (by norm_num)
      (by with_unfolding_all decide)⟩

end Bubble
